import Mathlib

/-!
Verification of the corpus search engine (inverted index, Jaccard similarity
graph, authority scoring, ranking) against its specification.

The Python sources are shallowly embedded: pure functions become Lean
functions, machine floats become `ℚ`, Python dicts become association lists,
Python sets become `Finset`/deduplicated lists.  Each definition mirrors one
source function and is named after it; module namespaces mirror the source
files (`CreateIndex` ↔ data/createIndex.py, `Jaccard` ↔ data/jaccard.py,
`App` ↔ app/app.py).

Modelling scope for text: the embedding covers ASCII plus the Latin-1 letters
that appear in the tokenizer's character class.  Python's Unicode machinery is
modelled on that domain:
* `str.lower` lowercases ASCII `A`–`Z` and Latin-1 `À`–`Þ` (except `×`);
* `unicodedata.normalize('NFKD', ·)` decomposes each precomposed Latin-1
  letter into its base letter followed by a combining mark (`é` ↦ `e`,`U+0301`);
* the accent filter `''.join(c for c in t if not normalize('NFD', c)[1:])`
  drops exactly the characters whose NFD decomposition has more than one
  character — after NFKD none remain, so the filter keeps combining marks
  (verified against CPython's unicodedata);
* `\w` matches letters, digits and underscore; combining marks are not `\w`.
-/

namespace PyText

/-- Combining grave accent U+0300. -/
def markGrave : Char := '̀'
/-- Combining acute accent U+0301. -/
def markAcute : Char := '́'
/-- Combining circumflex U+0302. -/
def markCirc : Char := '̂'
/-- Combining tilde U+0303. -/
def markTilde : Char := '̃'
/-- Combining diaeresis U+0308. -/
def markDiaer : Char := '̈'
/-- Combining ring above U+030A. -/
def markRing : Char := '̊'
/-- Combining cedilla U+0327. -/
def markCedilla : Char := '̧'

/-- The seven combining marks produced by NFKD on Latin-1 letters. -/
def combiningMarks : List Char :=
  [markGrave, markAcute, markCirc, markTilde, markDiaer, markRing, markCedilla]

/-- Python `str.lower` on one character, restricted to the modelled domain:
ASCII `A`–`Z` and the uppercase Latin-1 letters `À`–`Þ` (U+00D7 `×` is not a
letter and is left alone). -/
def pyLowerChar (c : Char) : Char :=
  if 'À' ≤ c ∧ c ≤ 'Þ' ∧ c ≠ '×' then Char.ofNat (c.toNat + 32) else c.toLower

/-- Python `str.lower` on a string (charwise on the modelled domain). -/
def pyLower (s : String) : String := String.mk (s.data.map pyLowerChar)

/-- NFKD decomposition of one character, for the lowercase Latin-1 letters.
`ø`, `æ`, `þ`, `ð` and `ß` have no decomposition and stay atomic, as in
Unicode. -/
def nfkdChar : Char → List Char
  | 'à' => ['a', markGrave]
  | 'á' => ['a', markAcute]
  | 'â' => ['a', markCirc]
  | 'ã' => ['a', markTilde]
  | 'ä' => ['a', markDiaer]
  | 'å' => ['a', markRing]
  | 'ç' => ['c', markCedilla]
  | 'è' => ['e', markGrave]
  | 'é' => ['e', markAcute]
  | 'ê' => ['e', markCirc]
  | 'ë' => ['e', markDiaer]
  | 'ì' => ['i', markGrave]
  | 'í' => ['i', markAcute]
  | 'î' => ['i', markCirc]
  | 'ï' => ['i', markDiaer]
  | 'ñ' => ['n', markTilde]
  | 'ò' => ['o', markGrave]
  | 'ó' => ['o', markAcute]
  | 'ô' => ['o', markCirc]
  | 'õ' => ['o', markTilde]
  | 'ö' => ['o', markDiaer]
  | 'ù' => ['u', markGrave]
  | 'ú' => ['u', markAcute]
  | 'û' => ['u', markCirc]
  | 'ü' => ['u', markDiaer]
  | 'ý' => ['y', markAcute]
  | 'ÿ' => ['y', markDiaer]
  | c => [c]

/-- A character whose NFD decomposition has more than one character; on the
modelled domain these are exactly the table entries of `nfkdChar`. -/
def decomposable (c : Char) : Bool := decide (1 < (nfkdChar c).length)

/-- Python `unicodedata.normalize('NFKD', s)` on the modelled domain. -/
def nfkd (s : String) : String := String.mk (s.data.flatMap nfkdChar)

/-- The source's accent filter
`''.join(c for c in text if not normalize('NFD', c)[1:])`: it keeps a
character iff its own NFD decomposition is a single character.  Applied after
`nfkd` it keeps everything — in particular it keeps combining marks. -/
def stripDecomposable (s : String) : String :=
  String.mk (s.data.filter (fun c => ! decomposable c))

/-- Python `\w` (word character) on the modelled domain: ASCII alphanumerics,
underscore, and Latin-1 letters.  Combining marks are not word characters. -/
def isWordChar (c : Char) : Bool :=
  c.isAlphanum || c == '_' || ('À' ≤ c && c ≤ 'ÿ' && c != '×' && c != '÷')

/-- Python `str.split()` (split on whitespace runs, dropping empty chunks),
on ASCII whitespace. -/
def pySplit (s : String) : List String :=
  ((s.data.splitOnP (fun c => c.isWhitespace)).filter (fun r => r ≠ [])).map String.mk

/-- An uppercase letter of the modelled domain: ASCII `A`–`Z` or Latin-1
`À`–`Þ` (excluding the symbol `×`).  Used to state that normalized tokens
are lowercase. -/
def IsUpperLike (c : Char) : Prop :=
  ('A' ≤ c ∧ c ≤ 'Z') ∨ ('À' ≤ c ∧ c ≤ 'Þ' ∧ c ≠ '×')

instance (c : Char) : Decidable (IsUpperLike c) := by
  unfold IsUpperLike
  infer_instance

end PyText

namespace CreateIndex

open PyText

/-- Stopword set from data/createIndex.py, verbatim (duplicates included). -/
def STOPWORDS : List String :=
  ["le", "la", "les", "de", "du", "des", "et", "or", "mais", "donc",
   "et", "ou", "un", "une", "des", "au", "aux", "par", "pour", "sur",
   "avec", "sans", "sous", "entre", "dans", "chez", "vers", "depuis",
   "jusqu", "à", "a", "en", "is", "it", "the", "a", "an", "and", "or",
   "but", "in", "on", "at", "to", "for", "of", "by", "from", "up",
   "about", "out", "if", "as", "be", "been", "being", "have", "has",
   "had", "do", "does", "did", "will", "would", "could", "should"]

/-- data/createIndex.py `normalize_text`: lowercase, then NFKD, then drop the
characters whose NFD decomposition is longer than one character.  (The same
body appears as `normalize_text` in app/app.py and `normalize_word` in
data/jaccard.py.) -/
def normalize_text (text : String) : String :=
  stripDecomposable (nfkd (pyLower text))

/-- data/createIndex.py `clean_word`: strip non-word characters
(`re.sub(r'[^\w]', '', word)`), then keep the word iff it is longer than two
characters and not a stopword. -/
def clean_word (word : String) : Option String :=
  let word := String.mk (word.data.filter isWordChar)
  if 2 < word.length ∧ word ∉ STOPWORDS then some word else none

/-- The token stream `build_index` derives from one document (lines 52–59 of
data/createIndex.py): whitespace-split the normalized text, then clean each
word.  The inverted index's keys are exactly the tokens of these streams. -/
def index_tokens (text : String) : List String :=
  (pySplit (normalize_text text)).filterMap clean_word

end CreateIndex

namespace Jaccard

open PyText

/-- Configuration constant `MIN_WORD_LENGTH` of data/jaccard.py. -/
def MIN_WORD_LENGTH : Nat := 3

/-- Configuration constant `MAX_WORDS_PER_BOOK` of data/jaccard.py. -/
def MAX_WORDS_PER_BOOK : Nat := 50000

/-- Configuration constant `JACCARD_THRESHOLD` of data/jaccard.py (the float
literal `0.1`, embedded as the rational it denotes in the comparisons). -/
def JACCARD_THRESHOLD : ℚ := 1/10

/-- data/jaccard.py `normalize_word`: same body as
`CreateIndex.normalize_text`. -/
def normalize_word (word : String) : String :=
  stripDecomposable (nfkd (pyLower word))

/-- The character class of the tokenizer's regex
`\b[a-zA-ZàáâäãåèéêëìíîïòóôöõøùúûüýÿñçÀ-ÿ]+\b`: the explicitly listed accented
letters all lie inside the `À`–`ÿ` range, so the class is ASCII letters plus
Latin-1 `À`–`ÿ`. -/
def letterClass (c : Char) : Bool :=
  ('a' ≤ c && c ≤ 'z') || ('A' ≤ c && c ≤ 'Z') || ('À' ≤ c && c ≤ 'ÿ')

/-- `re.findall` of the word regex: the maximal word-character runs of the
text that consist entirely of class letters.  (A run containing a word
character outside the class — a digit, underscore, or foreign letter — has no
word boundary inside it and contributes no match.  The class also admits the
non-word symbols `×` and `÷`, which the regex can only absorb in the middle
of a match; tokens bridged by them are outside the modelled domain.) -/
def findall_words (text : String) : List String :=
  (((text.data.splitOnP (fun c => ! isWordChar c)).filter (fun r => r ≠ [])).filter
    (fun r => r.all letterClass)).map String.mk

/-- data/jaccard.py `tokenize_text`: extract the words, normalize each, and
collect those of length at least `MIN_WORD_LENGTH` into a set.  No stopword
filtering happens here. -/
def tokenize_text (text : String) : Finset String :=
  (findall_words text).foldl (fun acc w =>
    let word_norm := normalize_word w
    if MIN_WORD_LENGTH ≤ word_norm.length then insert word_norm acc else acc) ∅

/-- Lines 67–69 of data/jaccard.py:
`if MAX_WORDS_PER_BOOK and len(words) > MAX_WORDS_PER_BOOK:
   words = set(list(words)[:MAX_WORDS_PER_BOOK])`.
`enum` is the run's enumeration `list(words)` of the token set — CPython's
set iteration order, which is interpreter run state (hash randomization), not
a function of the text.  Theorems tie `enum` to the text through hypotheses
(`enum.Nodup`, `enum.toFinset = tokenize_text text`). -/
def truncate_words (enum : List String) : List String :=
  if MAX_WORDS_PER_BOOK ≠ 0 ∧ MAX_WORDS_PER_BOOK < enum.length then
    enum.take MAX_WORDS_PER_BOOK
  else enum

/-- data/jaccard.py `load_book_words`: read the file (any raised exception is
caught and yields the empty set), tokenize, and apply the cardinality cap.
`read` is the outcome of `open`/`read`; `enum` is the run's enumeration of
the document's token set, as in `truncate_words`. -/
def load_book_words (read : Except String String) (enum : List String) : Finset String :=
  match read with
  | .error _ => ∅
  | .ok _text => (truncate_words enum).toFinset

/-- data/jaccard.py `calculate_jaccard`, with set cardinalities in `ℚ`. -/
def calculate_jaccard (set1 set2 : Finset String) : ℚ :=
  if set1.card = 0 ∨ set2.card = 0 then 0
  else
    let intersection : ℚ := ((set1 ∩ set2).card : ℚ)
    let union : ℚ := ((set1 ∪ set2).card : ℚ)
    if union = 0 then 0 else intersection / union

/-- The similarity graph: the node list and the labelled edge list, as built
(networkx `Graph` with `add_node`/`add_edge(weight=…)`). -/
structure JGraph where
  nodes : List String
  edges : List (String × String × ℚ)
deriving Repr, DecidableEq

/-- The unordered pairs scanned by the double loop
`for i in range(len(books)): for j in range(i+1, len(books))`, in loop
order. -/
def jaccard_pairs : List String → List (String × String)
  | [] => []
  | b :: bs => bs.map (fun b2 => (b, b2)) ++ jaccard_pairs bs

/-- data/jaccard.py `build_jaccard_graph`, the graph-shaping core (lines
143–190): every book becomes a node; for each unordered pair the Jaccard
coefficient is computed and an edge with that weight is added iff it reaches
`JACCARD_THRESHOLD`.  `book_words` is the loaded token set per book. -/
def build_jaccard_graph (books : List String) (book_words : String → Finset String) : JGraph :=
  { nodes := books
    edges := (jaccard_pairs books).filterMap (fun p =>
      let jaccard := calculate_jaccard (book_words p.1) (book_words p.2)
      if JACCARD_THRESHOLD ≤ jaccard then some (p.1, p.2, jaccard) else none) }

end Jaccard

namespace App

/-- One posting list: `{filename: count}` of index.json, as an association
list. -/
abbrev Postings := List (String × Nat)

/-- One value of the `INDEX` dict: `{"files": [...], "occurrences": {...}}`. -/
structure IndexEntry where
  files : List String
  occurrences : Postings
deriving Repr, DecidableEq

/-- The `INDEX` global of app/app.py: word → entry, as an association list. -/
abbrev Index := List (String × IndexEntry)

/-- The `PAGERANK` global of app/app.py: filename → score. -/
abbrev Pagerank := List (String × ℚ)

/-- `INDEX[query_word]["occurrences"].get(filename, 0)`.  The source raises
`KeyError` when `query_word` is absent from `INDEX`; every caller in the
source guards membership first, and the embedding returns the empty postings
in that unreachable case. -/
def indexOcc (idx : Index) (query_word filename : String) : Nat :=
  ((((idx.lookup query_word).map IndexEntry.occurrences).getD []).lookup filename).getD 0

/-- `INDEX[word]["files"]`, with the same membership caveat as `indexOcc`. -/
def indexFiles (idx : Index) (word : String) : List String :=
  ((idx.lookup word).map IndexEntry.files).getD []

/-- `PAGERANK.get(filename, 0)`. -/
def prGet (pr : Pagerank) (filename : String) : ℚ := (pr.lookup filename).getD 0

/-- One element of the list `rank_results` returns.  The source additionally
rounds the *displayed* `pagerank` field to six decimals (`round(·, 6)`); the
embedding keeps the exact value, which the score computation also uses
unrounded. -/
structure RankedItem where
  filename : String
  occurrences : Nat
  pagerank : ℚ
  score : ℚ
deriving Repr, DecidableEq

/-- The loop body of `rank_results` (lines 57–69 of app/app.py): one scored
entry for a candidate file. -/
def rank_item (idx : Index) (pr : Pagerank) (query_word : String)
    (filename : String) : RankedItem :=
  let occurrences := indexOcc idx query_word filename
  let pagerank_score := prGet pr filename
  { filename := filename
    occurrences := occurrences
    pagerank := pagerank_score
    score := (occurrences : ℚ) * (1 + pagerank_score * 10) }

/-- app/app.py `rank_results` (lines 48–73): score every candidate file and
sort by score, descending.  The `ranking_type` parameter is accepted but —
exactly as in the source — never read: the score is always
`occurrences * (1 + pagerank * 10)`.  Python's `list.sort` is stable, so the
sort is embedded as a stable merge sort with the reversed comparison. -/
def rank_results (idx : Index) (pr : Pagerank) (results : List String)
    (query_word : String) (ranking_type : String) : List RankedItem :=
  let ranked := results.map (rank_item idx pr query_word)
  ranked.mergeSort (fun a b => decide (b.score ≤ a.score))

/-- Python set accumulation `acc.update(l)` over a list modelled as a
deduplicated list in first-insertion order.  (CPython's set iteration order
is unspecified; the claims settled over this model do not depend on it.) -/
def set_update (acc : List String) (l : List String) : List String :=
  l.foldl (fun acc x => if x ∈ acc then acc else acc ++ [x]) acc

/-- app/app.py `advanced_search`, aggregation core (lines 149–166): collect
the vocabulary words accepted by the compiled pattern — `accepts` stands for
`pattern.search`, evaluated over `INDEX.keys()` — take the union of their
file lists, and rank the union using
`matching_words[0] if matching_words else ""` as the query word. -/
def advanced_search_core (idx : Index) (pr : Pagerank) (accepts : String → Bool)
    (ranking_type : String) : List String × List RankedItem :=
  let matching_words := (idx.map Prod.fst).filter accepts
  let all_files := matching_words.foldl (fun acc word => set_update acc (indexFiles idx word)) []
  (matching_words, rank_results idx pr all_files (matching_words.headD "") ranking_type)

/-- The `GRAPH` global: a networkx undirected graph, embedded as its node
list plus an adjacency function giving the `weight` attribute (`none` = no
edge). -/
structure SGraph where
  nodes : List String
  adj : String → String → Option ℚ

/-- `GRAPH.has_edge(a, b)`. -/
def hasEdge (G : SGraph) (a b : String) : Bool := (G.adj a b).isSome

/-- `x in GRAPH`. -/
def inGraph (G : SGraph) (x : String) : Bool := G.nodes.contains x

/-- `list(GRAPH.neighbors(u))`. -/
def neighbors (G : SGraph) (u : String) : List String :=
  G.nodes.filter (fun v => hasEdge G u v)

/-- `GRAPH[a][b].get("weight", 0)`. -/
def edgeWeight (G : SGraph) (a b : String) : ℚ := (G.adj a b).getD 0

/-- One element of the `suggestions` list.  As with `RankedItem.pagerank`,
the source's display rounding (`round(·, 6)` and `round(·, 4)`) is omitted
and exact values kept. -/
structure Suggestion where
  filename : String
  pagerank : ℚ
  similarity_score : ℚ
deriving Repr, DecidableEq

/-- app/app.py `suggestions` (lines 202–238): rank the query's files, keep
the top 3, collect the graph neighbors of those that are graph nodes, drop
the top results themselves, and report for each remaining candidate its
PageRank and its edge weight to `top_results[0]` — the single best-ranked
result — or 0 when no such edge exists; finally sort by PageRank descending.
Returns (top_results, suggestions). -/
def suggestions_core (idx : Index) (pr : Pagerank) (G : SGraph)
    (query_normalized : String) : List RankedItem × List Suggestion :=
  let files := indexFiles idx query_normalized
  let ranked := rank_results idx pr files query_normalized "hybrid"
  let top_results := ranked.take 3
  let sset := top_results.foldl (fun acc r =>
    if inGraph G r.filename then set_update acc (neighbors G r.filename) else acc) []
  let sset := sset.filter (fun s => ! (top_results.map RankedItem.filename).contains s)
  let suggs :=
    match top_results with
    | [] => []
    | t0 :: _ =>
      sset.map (fun s =>
        { filename := s
          pagerank := prGet pr s
          similarity_score :=
            if inGraph G s ∧ inGraph G t0.filename ∧ hasEdge G t0.filename s then
              edgeWeight G t0.filename s
            else 0 : Suggestion })
  (top_results, suggs.mergeSort (fun a b => decide (b.pagerank ≤ a.pagerank)))

end App

namespace Authority

/-- Damping factor: the default `alpha=0.85` of `nx.pagerank`, which §4.4 of
the spec fixes as `damping=0.85`. -/
def DAMPING : ℚ := 85/100

/-- Total outgoing weight of a node (the row sum used to normalize the
transition probabilities). -/
def outWeight (nodes : Finset String) (w : String → String → ℚ) (u : String) : ℚ :=
  ∑ v ∈ nodes, w u v

/-- Modelled from the spec: the authority engine is `nx.pagerank(GRAPH)`,
whose algorithm is not part of this repository's sources.  Following §4.4,
one power-iteration step over the weighted graph: each node keeps the
teleport share `(1-d)/N` and receives a `d`-damped share of every node's
mass, distributed to neighbors in proportion to edge weight (normalized by
the node's total outgoing weight) — while a dangling node (total outgoing
weight 0) spreads its mass uniformly over all `N` nodes.  `w u v` is the edge
weight (0 when there is no edge). -/
def pagerank_step (nodes : Finset String) (w : String → String → ℚ)
    (prev : String → ℚ) : String → ℚ := fun v =>
  (1 - DAMPING) / (nodes.card : ℚ) +
    DAMPING * ∑ u ∈ nodes, prev u *
      (if outWeight nodes w u = 0 then 1 / (nodes.card : ℚ) else w u v / outWeight nodes w u)

/-- Modelled from the spec: the power iteration of §4.4, started — as
`nx.pagerank` starts — from the uniform distribution `1/N`. -/
def pagerank_iter (nodes : Finset String) (w : String → String → ℚ) : Nat → String → ℚ
  | 0 => fun _ => 1 / (nodes.card : ℚ)
  | k + 1 => pagerank_step nodes w (pagerank_iter nodes w k)

end Authority

namespace Fixtures

/-- Index fixture: one word `w` occurring twice in file `A`. -/
def idx1 : App.Index := [("w", { files := ["A"], occurrences := [("A", 2)] })]

/-- PageRank fixture giving file `A` authority 1/2. -/
def pr1 : App.Pagerank := [("A", 1/2)]

/-- Index fixture: two words `aa` and `ab`, each occurring once in file
`D`. -/
def idx2 : App.Index :=
  [("aa", { files := ["D"], occurrences := [("D", 1)] }),
   ("ab", { files := ["D"], occurrences := [("D", 1)] })]

/-- Index fixture: one word `w` occurring once in each of the files `b` and
`a`, listed in the order `b`, `a`. -/
def idx3 : App.Index := [("w", { files := ["b", "a"], occurrences := [("b", 1), ("a", 1)] })]

/-- Index fixture for the suggestion path: `cat` occurs twice in `A`, once in
`B`. -/
def idx4 : App.Index := [("cat", { files := ["A", "B"], occurrences := [("A", 2), ("B", 1)] })]

/-- Graph fixture on nodes `A`, `B`, `C` with a single (symmetric) edge
`B`–`C` of weight 1/2. -/
def G4 : App.SGraph :=
  { nodes := ["A", "B", "C"]
    adj := fun a b =>
      if (a = "B" ∧ b = "C") ∨ (a = "C" ∧ b = "B") then some (1/2) else none }

/-- The n-th of 50001 pairwise distinct tokens (a string of n+1 letters
`a`). -/
def bigTok (n : Nat) : String := String.mk (List.replicate (n + 1) 'a')

/-- One enumeration of a 50001-element token set. -/
def bigList : List String := (List.range 50001).map bigTok

/-- A second enumeration of the same token set, with the last token moved to
the front. -/
def bigList2 : List String := bigTok 50000 :: (List.range 50000).map bigTok

/-- Token sets for a two-book corpus: `A ↦ {x, y}`, `B ↦ {x}` (Jaccard
1/2). -/
def bw7 : String → Finset String :=
  fun b => if b = "A" then {"x", "y"} else if b = "B" then {"x"} else ∅

/-- Symmetric weight function on nodes `A`, `B` with one edge of weight
1/2. -/
def w8 : String → String → ℚ :=
  fun u v => if (u = "A" ∧ v = "B") ∨ (u = "B" ∧ v = "A") then 1/2 else 0

/-- Token sets where book `A`'s read failed (empty set) and `B` loaded
normally. -/
def bw10 : String → Finset String :=
  fun b => if b = "A" then Jaccard.load_book_words (.error "read failure") ["ignored"]
           else {"xyz", "uvw"}

end Fixtures

/-! ## Helper lemmas -/

theorem char_eq_of_toNat_eq {c d : Char} (h : c.toNat = d.toNat) : c = d :=
  Char.eq_of_val_eq (UInt32.eq_of_toBitVec_eq (BitVec.eq_of_toNat_eq h))

theorem char_le_iff_toNat {c d : Char} : c ≤ d ↔ c.toNat ≤ d.toNat := by
  simp only [Char.le_def, UInt32.le_def, BitVec.le_def]
  exact Iff.rfl

theorem char_toNat_ofNat_of_lt {n : Nat} (h : n < 55296) : (Char.ofNat n).toNat = n := by
  have hv : n.isValidChar := Or.inl h
  rw [Char.ofNat, dif_pos hv]
  rfl

theorem calculate_jaccard_comm (A B : Finset String) :
    Jaccard.calculate_jaccard A B = Jaccard.calculate_jaccard B A := by
  by_cases hA : A.card = 0 <;> by_cases hB : B.card = 0 <;>
    simp [Jaccard.calculate_jaccard, hA, hB, Finset.inter_comm, Finset.union_comm]

theorem calculate_jaccard_self {A : Finset String} (h : A.Nonempty) :
    Jaccard.calculate_jaccard A A = 1 := by
  have h0 : A.card ≠ 0 := Nat.pos_iff_ne_zero.mp (Finset.card_pos.mpr h)
  have hq : (A.card : ℚ) ≠ 0 := Nat.cast_ne_zero.mpr h0
  simp [Jaccard.calculate_jaccard, h0, Finset.inter_self, Finset.union_self, div_self hq]

theorem calculate_jaccard_empty_left (B : Finset String) :
    Jaccard.calculate_jaccard ∅ B = 0 := by
  simp [Jaccard.calculate_jaccard]

/-! ## Claim C6 -/

/-- C6: the implemented Jaccard coefficient is symmetric; it equals 1 on any
non-empty set compared with itself; and on two empty sets it returns exactly
0 (the empty-union case is caught before any division). -/
theorem C6_jaccard_algebra (A B : Finset String) :
    Jaccard.calculate_jaccard A B = Jaccard.calculate_jaccard B A ∧
    (A.Nonempty → Jaccard.calculate_jaccard A A = 1) ∧
    Jaccard.calculate_jaccard ∅ ∅ = 0 :=
  ⟨calculate_jaccard_comm A B, fun h => calculate_jaccard_self h,
   calculate_jaccard_empty_left ∅⟩

/-- C6 witness: the three properties evaluated on the concrete sets
`{"abc"}` and `∅`. -/
theorem C6_jaccard_algebra_witness :
    Jaccard.calculate_jaccard {"abc"} ∅ = Jaccard.calculate_jaccard ∅ {"abc"} ∧
    Jaccard.calculate_jaccard {"abc"} {"abc"} = 1 ∧
    Jaccard.calculate_jaccard ∅ ∅ = 0 :=
  ⟨(C6_jaccard_algebra {"abc"} ∅).1,
   (C6_jaccard_algebra {"abc"} {"abc"}).2.1 ⟨"abc", by simp⟩,
   (C6_jaccard_algebra {"abc"} ∅).2.2⟩

/-! ## Claim C1 -/

/-- C1 (code bug): `rank_results` never reads its ranking-mode argument.
With mode `occurrences`, a document with 2 occurrences and authority 1/2
still receives the hybrid score 2 × (1 + (1/2) × 10) = 12 instead of its
occurrence count 2, and the output is identical to the hybrid mode's. -/
theorem C1_rank_results_ignores_mode :
    App.rank_results Fixtures.idx1 Fixtures.pr1 ["A"] "w" "occurrences"
      = [{ filename := "A", occurrences := 2, pagerank := 1/2, score := 12 }] ∧
    App.rank_results Fixtures.idx1 Fixtures.pr1 ["A"] "w" "occurrences"
      = App.rank_results Fixtures.idx1 Fixtures.pr1 ["A"] "w" "hybrid" ∧
    (12 : ℚ) ≠ 2 := by
  refine ⟨?_, rfl, by norm_num⟩
  simp [App.rank_results, App.rank_item, App.indexOcc, App.prGet,
    Fixtures.idx1, Fixtures.pr1, List.mergeSort, List.lookup]
  norm_num

/-! ## Claim C2 -/

/-- C2 (code bug): on a pattern matching the two vocabulary words `aa` and
`ab`, both occurring once in document `D`, the ranked occurrence count for
`D` is 1 — the count of the first matching word alone — although the sum
over all matching terms is 2. -/
theorem C2_advanced_search_first_term_only :
    App.advanced_search_core Fixtures.idx2 [] (fun w => w = "aa" || w = "ab") "hybrid"
      = (["aa", "ab"], [{ filename := "D", occurrences := 1, pagerank := 0, score := 1 }]) ∧
    App.indexOcc Fixtures.idx2 "aa" "D" + App.indexOcc Fixtures.idx2 "ab" "D" = 2 ∧
    (1 : Nat) ≠ 2 := by
  refine ⟨?_, by decide, by decide⟩
  simp [App.advanced_search_core, App.set_update, App.indexFiles, App.rank_results,
    App.rank_item, App.indexOcc, App.prGet, Fixtures.idx2, List.mergeSort, List.lookup]

/-! ## Claim C3 -/

/-- C3 counterexample: two candidates with equal combined score are returned
in input order `["b", "a"]`, not in ascending lexicographic id order
(`"a" < "b"`), so ties are not broken by document id. -/
theorem C3_counterexample :
    (App.rank_results Fixtures.idx3 [] ["b", "a"] "w" "hybrid").map App.RankedItem.filename
      = ["b", "a"] ∧
    (App.rank_results Fixtures.idx3 [] ["b", "a"] "w" "hybrid").map App.RankedItem.score
      = [1, 1] ∧
    "a" < "b" := by
  refine ⟨?_, ?_, ?lex⟩
  case lex =>
    rw [String.lt_iff_toList_lt]
    decide
  all_goals
    simp [App.rank_results, App.rank_item, App.indexOcc, App.prGet, Fixtures.idx3,
      List.mergeSort, List.lookup, List.splitInTwo, List.splitAt, List.splitAt.go,
      List.merge]

/-- C3 as amended: the ranked list is sorted descending by combined score and
is a permutation of the scored candidates, and — Python's sort being stable —
two equal-score results keep their relative order from the candidate list;
ties are not reordered by document id. -/
theorem C3_sorted_stable_perm (idx : App.Index) (pr : App.Pagerank)
    (results : List String) (qw rt : String) :
    (App.rank_results idx pr results qw rt).Pairwise (fun a b => b.score ≤ a.score) ∧
    (App.rank_results idx pr results qw rt).Perm (results.map (App.rank_item idx pr qw)) ∧
    (∀ a b : App.RankedItem, [a, b].Sublist (results.map (App.rank_item idx pr qw)) →
      a.score = b.score → [a, b].Sublist (App.rank_results idx pr results qw rt)) := by
  have trans : ∀ a b c : App.RankedItem,
      decide (b.score ≤ a.score) → decide (c.score ≤ b.score) → decide (c.score ≤ a.score) := by
    intro a b c h1 h2
    exact decide_eq_true (le_trans (of_decide_eq_true h2) (of_decide_eq_true h1))
  have total : ∀ a b : App.RankedItem,
      (decide (b.score ≤ a.score) || decide (a.score ≤ b.score)) = true := by
    intro a b
    rcases le_total a.score b.score with h | h <;> simp [h]
  refine ⟨?_, ?_, ?_⟩
  · exact ((results.map (App.rank_item idx pr qw)).sorted_mergeSort trans total).imp
      (fun h => of_decide_eq_true h)
  · exact List.mergeSort_perm _ _
  · intro a b hsub hscore
    exact List.pair_sublist_mergeSort trans total
      (decide_eq_true (le_of_eq hscore.symm)) hsub

/-- C3 witness: on the concrete tie `idx3`, the two equal-score items keep
their input order in the output. -/
theorem C3_sorted_stable_perm_witness :
    [⟨"b", 1, 0, 1⟩, ⟨"a", 1, 0, 1⟩].Sublist
      (App.rank_results Fixtures.idx3 [] ["b", "a"] "w" "hybrid") := by
  have hmap : ["b", "a"].map (App.rank_item Fixtures.idx3 [] "w")
      = [⟨"b", 1, 0, 1⟩, ⟨"a", 1, 0, 1⟩] := by
    simp [App.rank_item, App.indexOcc, App.prGet, Fixtures.idx3, List.lookup]
  exact (C3_sorted_stable_perm Fixtures.idx3 [] ["b", "a"] "w" "hybrid").2.2 _ _
    (by rw [hmap]) rfl

/-! ## Claim C5 -/

theorem bigTok_inj : Function.Injective Fixtures.bigTok := by
  intro m n h
  have h2 : List.replicate (m + 1) 'a' = List.replicate (n + 1) 'a' :=
    congrArg String.data h
  have h3 := congrArg List.length h2
  simp at h3
  omega

theorem bigTok_not_mem_head :
    Fixtures.bigTok 50000 ∉ (List.range 50000).map Fixtures.bigTok := by
  intro hmem
  obtain ⟨m, hm, heq⟩ := List.mem_map.mp hmem
  have := bigTok_inj heq
  subst this
  exact absurd (List.mem_range.mp hm) (by omega)

theorem bigList_eq_append :
    Fixtures.bigList = (List.range 50000).map Fixtures.bigTok ++ [Fixtures.bigTok 50000] := by
  rw [Fixtures.bigList, List.range_succ, List.map_append]
  rfl

/-- C5 counterexample: `bigList` and `bigList2` are two duplicate-free
enumerations of the same 50001-element token set — two runs' `list(words)`
for identical content — yet the loader's capped truncation keeps different
token sets: the 50001-st token survives one run and not the other.  The
truncation is therefore not a function of the content. -/
theorem C5_counterexample :
    Fixtures.bigList.Nodup ∧ Fixtures.bigList2.Nodup ∧
    Fixtures.bigList.toFinset = Fixtures.bigList2.toFinset ∧
    Jaccard.load_book_words (.ok "text") Fixtures.bigList
      ≠ Jaccard.load_book_words (.ok "text") Fixtures.bigList2 := by
  have nd1 : Fixtures.bigList.Nodup := (List.nodup_range 50001).map bigTok_inj
  have nd2 : Fixtures.bigList2.Nodup :=
    List.nodup_cons.mpr ⟨bigTok_not_mem_head, (List.nodup_range 50000).map bigTok_inj⟩
  have hperm : Fixtures.bigList.Perm Fixtures.bigList2 := by
    rw [bigList_eq_append]
    exact List.perm_append_singleton _ _
  have lenA : Fixtures.bigList.length = 50001 := by
    rw [Fixtures.bigList, List.length_map, List.length_range]
  have lenB : Fixtures.bigList2.length = 50001 := by
    rw [Fixtures.bigList2, List.length_cons, List.length_map, List.length_range]
  have hcondA : Jaccard.MAX_WORDS_PER_BOOK ≠ 0 ∧
      Jaccard.MAX_WORDS_PER_BOOK < Fixtures.bigList.length := by
    rw [lenA, Jaccard.MAX_WORDS_PER_BOOK]
    omega
  have hcondB : Jaccard.MAX_WORDS_PER_BOOK ≠ 0 ∧
      Jaccard.MAX_WORDS_PER_BOOK < Fixtures.bigList2.length := by
    rw [lenB, Jaccard.MAX_WORDS_PER_BOOK]
    omega
  have truncA : Jaccard.truncate_words Fixtures.bigList
      = (List.range 50000).map Fixtures.bigTok := by
    rw [Jaccard.truncate_words, if_pos hcondA, bigList_eq_append]
    exact List.take_left' (by rw [List.length_map, List.length_range]; rfl)
  have truncB : Jaccard.truncate_words Fixtures.bigList2
      = Fixtures.bigTok 50000 :: ((List.range 50000).map Fixtures.bigTok).take 49999 := by
    rw [Jaccard.truncate_words, if_pos hcondB, Fixtures.bigList2]
    show List.take (49999 + 1) _ = _
    rw [List.take_succ_cons]
  refine ⟨nd1, nd2, List.toFinset_eq_of_perm _ _ hperm, ?_⟩
  intro hEq
  have hmemB : Fixtures.bigTok 50000 ∈ Jaccard.load_book_words (.ok "text") Fixtures.bigList2 := by
    rw [Jaccard.load_book_words, truncB]
    simp
  have hmemA : Fixtures.bigTok 50000 ∈ Jaccard.load_book_words (.ok "text") Fixtures.bigList := by
    rw [hEq]
    exact hmemB
  rw [Jaccard.load_book_words, truncA, List.mem_toFinset] at hmemA
  exact bigTok_not_mem_head hmemA

/-- C5 as amended: tokenization itself is a deterministic function of the
content, and as long as a document's token set does not exceed the
50000-word cap the loader hands the same token set to pair comparison in
every run (for any two duplicate-free enumerations of the set); only above
the cap does the result depend on the run's enumeration order. -/
theorem C5_deterministic_below_cap (read : Except String String)
    (e1 e2 : List String) (h1 : e1.Nodup) (h2 : e2.Nodup)
    (hset : e1.toFinset = e2.toFinset)
    (hlen : e1.length ≤ Jaccard.MAX_WORDS_PER_BOOK) :
    Jaccard.load_book_words read e1 = Jaccard.load_book_words read e2 := by
  cases read with
  | error e => rfl
  | ok text =>
    have c1 : e1.toFinset.card = e1.length := List.toFinset_card_of_nodup h1
    have c2 : e2.toFinset.card = e2.length := List.toFinset_card_of_nodup h2
    have hlen2 : e2.length = e1.length := by
      rw [← c1, ← c2, hset]
    simp only [Jaccard.load_book_words, Jaccard.truncate_words]
    rw [if_neg (by rw [hlen2] at *; omega : ¬ (Jaccard.MAX_WORDS_PER_BOOK ≠ 0 ∧ Jaccard.MAX_WORDS_PER_BOOK < e1.length)),
        if_neg (by rw [hlen2] at *; omega : ¬ (Jaccard.MAX_WORDS_PER_BOOK ≠ 0 ∧ Jaccard.MAX_WORDS_PER_BOOK < e2.length))]
    exact hset

/-- C5 witness: two enumeration orders of the same two-token set load the
same token set. -/
theorem C5_deterministic_below_cap_witness :
    Jaccard.load_book_words (.ok "x") ["abc", "defg"]
      = Jaccard.load_book_words (.ok "x") ["defg", "abc"] :=
  C5_deterministic_below_cap (.ok "x") ["abc", "defg"] ["defg", "abc"]
    (by decide) (by decide) (by decide) (by norm_num [Jaccard.MAX_WORDS_PER_BOOK])

/-! ## Claim C10 -/

theorem calculate_jaccard_empty_right (A : Finset String) :
    Jaccard.calculate_jaccard A ∅ = 0 := by
  simp [Jaccard.calculate_jaccard]

/-- C10: a document whose read raised an exception loads as the empty token
set, still becomes a node of the similarity graph, and is isolated there: no
edge has it as an endpoint (its Jaccard with any set is 0, below the
threshold). -/
theorem C10_failed_read_isolated_node (books : List String)
    (bw : String → Finset String) (b err : String) (enum : List String)
    (hb : b ∈ books)
    (hbw : bw b = Jaccard.load_book_words (.error err) enum) :
    bw b = ∅ ∧
    b ∈ (Jaccard.build_jaccard_graph books bw).nodes ∧
    ∀ e ∈ (Jaccard.build_jaccard_graph books bw).edges, e.1 ≠ b ∧ e.2.1 ≠ b := by
  have hempty : bw b = ∅ := hbw
  refine ⟨hempty, hb, ?_⟩
  intro e he
  simp only [Jaccard.build_jaccard_graph] at he
  obtain ⟨p, hp, hfe⟩ := List.mem_filterMap.mp he
  by_cases hc : Jaccard.JACCARD_THRESHOLD ≤ Jaccard.calculate_jaccard (bw p.1) (bw p.2)
  · rw [if_pos hc] at hfe
    have he1 : e.1 = p.1 := by rw [← Option.some.inj hfe]
    have he2 : e.2.1 = p.2 := by rw [← Option.some.inj hfe]
    constructor
    · intro h1
      rw [he1] at h1
      rw [h1, hempty, calculate_jaccard_empty_left] at hc
      exact absurd hc (by norm_num [Jaccard.JACCARD_THRESHOLD])
    · intro h2
      rw [he2] at h2
      rw [h2, hempty, calculate_jaccard_empty_right] at hc
      exact absurd hc (by norm_num [Jaccard.JACCARD_THRESHOLD])
  · rw [if_neg hc] at hfe
    exact absurd hfe (by simp)

/-- C10 witness: in the two-book corpus where book `A`'s read failed, `A` is
an isolated node of the built graph. -/
theorem C10_failed_read_isolated_node_witness :
    Fixtures.bw10 "A" = ∅ ∧
    "A" ∈ (Jaccard.build_jaccard_graph ["A", "B"] Fixtures.bw10).nodes ∧
    ∀ e ∈ (Jaccard.build_jaccard_graph ["A", "B"] Fixtures.bw10).edges,
      e.1 ≠ "A" ∧ e.2.1 ≠ "A" :=
  C10_failed_read_isolated_node ["A", "B"] Fixtures.bw10 "A" "read failure" ["ignored"]
    (by decide) (by simp [Fixtures.bw10])

/-! ## Claim C7 -/

theorem mem_jaccard_pairs {l : List String} {a b : String}
    (h : (a, b) ∈ Jaccard.jaccard_pairs l) : a ∈ l ∧ b ∈ l := by
  induction l with
  | nil => simp [Jaccard.jaccard_pairs] at h
  | cons x xs ih =>
    simp only [Jaccard.jaccard_pairs, List.mem_append] at h
    rcases h with h1 | h2
    · obtain ⟨b2, hb2, heq⟩ := List.mem_map.mp h1
      obtain ⟨rfl, rfl⟩ := Prod.mk.injEq .. ▸ heq
      exact ⟨List.mem_cons_self _ _, List.mem_cons_of_mem _ hb2⟩
    · obtain ⟨ha, hb⟩ := ih h2
      exact ⟨List.mem_cons_of_mem _ ha, List.mem_cons_of_mem _ hb⟩

theorem jaccard_pairs_or {l : List String} {a b : String} (hnd : l.Nodup)
    (ha : a ∈ l) (hb : b ∈ l) (hne : a ≠ b) :
    (a, b) ∈ Jaccard.jaccard_pairs l ∨ (b, a) ∈ Jaccard.jaccard_pairs l := by
  induction l with
  | nil => cases ha
  | cons x xs ih =>
    obtain ⟨hx, hxs⟩ := List.nodup_cons.mp hnd
    simp only [Jaccard.jaccard_pairs, List.mem_append]
    rcases List.mem_cons.mp ha with rfl | ha'
    · have hb' : b ∈ xs := (List.mem_cons.mp hb).resolve_left (fun h => hne h.symm)
      exact Or.inl (Or.inl (List.mem_map.mpr ⟨b, hb', rfl⟩))
    · rcases List.mem_cons.mp hb with rfl | hb'
      · exact Or.inr (Or.inl (List.mem_map.mpr ⟨a, ha', rfl⟩))
      · rcases ih hxs ha' hb' with h | h
        · exact Or.inl (Or.inr h)
        · exact Or.inr (Or.inr h)

theorem jaccard_pairs_ne {l : List String} {a b : String} (hnd : l.Nodup)
    (h : (a, b) ∈ Jaccard.jaccard_pairs l) : a ≠ b := by
  induction l with
  | nil => simp [Jaccard.jaccard_pairs] at h
  | cons x xs ih =>
    obtain ⟨hx, hxs⟩ := List.nodup_cons.mp hnd
    simp only [Jaccard.jaccard_pairs, List.mem_append] at h
    rcases h with h1 | h2
    · obtain ⟨b2, hb2, heq⟩ := List.mem_map.mp h1
      obtain ⟨rfl, rfl⟩ := Prod.mk.injEq .. ▸ heq
      intro hab
      exact hx (hab ▸ hb2)
    · exact ih hxs h2

theorem jaccard_pairs_not_swap {l : List String} {a b : String} (hnd : l.Nodup)
    (h : (a, b) ∈ Jaccard.jaccard_pairs l) :
    (b, a) ∉ Jaccard.jaccard_pairs l := by
  induction l with
  | nil => simp [Jaccard.jaccard_pairs] at h
  | cons x xs ih =>
    obtain ⟨hx, hxs⟩ := List.nodup_cons.mp hnd
    simp only [Jaccard.jaccard_pairs, List.mem_append] at h ⊢
    rcases h with h1 | h2
    · obtain ⟨b2, hb2, heq⟩ := List.mem_map.mp h1
      obtain ⟨rfl, rfl⟩ := Prod.mk.injEq .. ▸ heq
      rintro (hs1 | hs2)
      · obtain ⟨c, hc, heq2⟩ := List.mem_map.mp hs1
        obtain ⟨rfl, -⟩ := Prod.mk.injEq .. ▸ heq2
        exact hx hb2
      · exact hx (mem_jaccard_pairs hs2).2
    · rintro (hs1 | hs2)
      · obtain ⟨c, hc, heq2⟩ := List.mem_map.mp hs1
        obtain ⟨rfl, rfl⟩ := Prod.mk.injEq .. ▸ heq2
        exact hx (mem_jaccard_pairs h2).2
      · exact ih hxs h2 hs2

theorem jaccard_pairs_pairwise {l : List String} (hnd : l.Nodup) :
    (Jaccard.jaccard_pairs l).Pairwise (fun p q =>
      ¬ (p.1 = q.1 ∧ p.2 = q.2) ∧ ¬ (p.1 = q.2 ∧ p.2 = q.1)) := by
  induction l with
  | nil => simp [Jaccard.jaccard_pairs]
  | cons x xs ih =>
    obtain ⟨hx, hxs⟩ := List.nodup_cons.mp hnd
    simp only [Jaccard.jaccard_pairs]
    rw [List.pairwise_append]
    refine ⟨?_, ih hxs, ?_⟩
    · rw [List.pairwise_map]
      refine hxs.imp_of_mem ?_
      intro b b' hbmem hbmem' hne
      constructor
      · intro hcon
        exact hne hcon.2
      · intro hcon
        have hxb : x = b' := hcon.1
        rw [hxb] at hx
        exact hx hbmem'
    · intro p hp q hq
      obtain ⟨c, hc, heq⟩ := List.mem_map.mp hp
      obtain ⟨rfl, rfl⟩ := Prod.mk.injEq .. ▸ heq
      have hq1 : q.1 ∈ xs := (mem_jaccard_pairs (l := xs) (a := q.1) (b := q.2) (by simpa using hq)).1
      have hq2 : q.2 ∈ xs := (mem_jaccard_pairs (l := xs) (a := q.1) (b := q.2) (by simpa using hq)).2
      exact ⟨fun hcon => hx (hcon.1 ▸ hq1), fun hcon => hx (hcon.1 ▸ hq2)⟩

theorem edge_opt_some {θ jac : ℚ} {p : String × String} {e : String × String × ℚ}
    (h : (if θ ≤ jac then some (p.1, p.2, jac) else none) = some e) :
    e.1 = p.1 ∧ e.2.1 = p.2 ∧ e.2.2 = jac ∧ θ ≤ jac := by
  by_cases hc : θ ≤ jac
  · rw [if_pos hc] at h
    obtain rfl := Option.some.inj h
    exact ⟨rfl, rfl, rfl, hc⟩
  · rw [if_neg hc] at h
    cases h

theorem mem_build_edges {books : List String} {bw : String → Finset String}
    {a b : String} {wt : ℚ} :
    (a, b, wt) ∈ (Jaccard.build_jaccard_graph books bw).edges ↔
      ((a, b) ∈ Jaccard.jaccard_pairs books ∧
       Jaccard.JACCARD_THRESHOLD ≤ Jaccard.calculate_jaccard (bw a) (bw b) ∧
       wt = Jaccard.calculate_jaccard (bw a) (bw b)) := by
  simp only [Jaccard.build_jaccard_graph, List.mem_filterMap]
  constructor
  · rintro ⟨p, hp, hfe⟩
    obtain ⟨h1, h2, h3, h4⟩ := edge_opt_some hfe
    simp only at h1 h2 h3
    subst h1
    subst h2
    subst h3
    exact ⟨by simpa using hp, h4, rfl⟩
  · rintro ⟨hp, hc, hw⟩
    exact ⟨(a, b), hp, by rw [if_pos hc, hw]⟩

/-- C7: for a duplicate-free corpus, the built graph's node list is exactly
the corpus; no edge is a self-edge; distinct edge entries name distinct
unordered pairs (at most one edge per pair, in either orientation); and an
edge between two distinct corpus documents exists — in exactly one
orientation — iff their Jaccard coefficient reaches the threshold, in which
case the edge weight is that coefficient. -/
theorem C7_graph_invariants (books : List String) (bw : String → Finset String)
    (hnd : books.Nodup) :
    (Jaccard.build_jaccard_graph books bw).nodes = books ∧
    (∀ e ∈ (Jaccard.build_jaccard_graph books bw).edges, e.1 ≠ e.2.1) ∧
    ((Jaccard.build_jaccard_graph books bw).edges.Pairwise (fun e e' =>
      ¬ (e.1 = e'.1 ∧ e.2.1 = e'.2.1) ∧ ¬ (e.1 = e'.2.1 ∧ e.2.1 = e'.1))) ∧
    (∀ a b, a ∈ books → b ∈ books → a ≠ b →
      (((∃ wt, (a, b, wt) ∈ (Jaccard.build_jaccard_graph books bw).edges ∨
               (b, a, wt) ∈ (Jaccard.build_jaccard_graph books bw).edges) ↔
         Jaccard.JACCARD_THRESHOLD ≤ Jaccard.calculate_jaccard (bw a) (bw b)) ∧
       (∀ wt, ((a, b, wt) ∈ (Jaccard.build_jaccard_graph books bw).edges ∨
               (b, a, wt) ∈ (Jaccard.build_jaccard_graph books bw).edges) →
         wt = Jaccard.calculate_jaccard (bw a) (bw b)))) := by
  refine ⟨rfl, ?_, ?_, ?_⟩
  · rintro ⟨a, b, wt⟩ he
    exact jaccard_pairs_ne hnd (mem_build_edges.mp he).1
  · refine List.Pairwise.filterMap _ ?_ (jaccard_pairs_pairwise hnd)
    intro p p' hR e he e' he'
    rw [Option.mem_def] at he he'
    obtain ⟨h1, h2, -, -⟩ := edge_opt_some he
    obtain ⟨h1', h2', -, -⟩ := edge_opt_some he'
    rw [h1, h2, h1', h2']
    exact hR
  · intro a b ha hb hne
    constructor
    · constructor
      · rintro ⟨wt, h | h⟩
        · exact (mem_build_edges.mp h).2.1
        · rw [calculate_jaccard_comm]
          exact (mem_build_edges.mp h).2.1
      · intro hc
        rcases jaccard_pairs_or hnd ha hb hne with hp | hp
        · exact ⟨_, Or.inl (mem_build_edges.mpr ⟨hp, hc, rfl⟩)⟩
        · refine ⟨Jaccard.calculate_jaccard (bw a) (bw b),
            Or.inr (mem_build_edges.mpr ⟨hp, ?_, ?_⟩)⟩
          · rw [calculate_jaccard_comm]
            exact hc
          · rw [calculate_jaccard_comm]
    · rintro wt (h | h)
      · exact (mem_build_edges.mp h).2.2
      · rw [(mem_build_edges.mp h).2.2, calculate_jaccard_comm]

/-- C7 witness: on the two-book corpus with token sets `{x, y}` and `{x}`
(Jaccard 1/2 ≥ 1/10), the graph has exactly those nodes and an edge between
the two books. -/
theorem C7_graph_invariants_witness :
    (Jaccard.build_jaccard_graph ["A", "B"] Fixtures.bw7).nodes = ["A", "B"] ∧
    (∃ wt, ("A", "B", wt) ∈ (Jaccard.build_jaccard_graph ["A", "B"] Fixtures.bw7).edges ∨
           ("B", "A", wt) ∈ (Jaccard.build_jaccard_graph ["A", "B"] Fixtures.bw7).edges) := by
  have hthm := C7_graph_invariants ["A", "B"] Fixtures.bw7 (by decide)
  refine ⟨hthm.1, (hthm.2.2.2 "A" "B" (by decide) (by decide) (by decide)).1.mpr ?_⟩
  have h1 : (Fixtures.bw7 "A" ∩ Fixtures.bw7 "B").card = 1 := by decide
  have h2 : (Fixtures.bw7 "A" ∪ Fixtures.bw7 "B").card = 2 := by decide
  have h3 : (Fixtures.bw7 "A").card = 2 := by decide
  have h4 : (Fixtures.bw7 "B").card = 1 := by decide
  simp only [Jaccard.calculate_jaccard, h1, h2, h3, h4]
  norm_num [Jaccard.JACCARD_THRESHOLD]

/-! ## Claim C8 -/

theorem transition_row_sum (nodes : Finset String) (w : String → String → ℚ)
    (hne : nodes.Nonempty) (u : String) :
    (∑ v ∈ nodes, (if Authority.outWeight nodes w u = 0 then 1 / (nodes.card : ℚ)
                   else w u v / Authority.outWeight nodes w u)) = 1 := by
  have hcard : (nodes.card : ℚ) ≠ 0 :=
    Nat.cast_ne_zero.mpr (Finset.card_pos.mpr hne).ne'
  by_cases h : Authority.outWeight nodes w u = 0
  · simp only [if_pos h]
    rw [Finset.sum_const, nsmul_eq_mul]
    field_simp
  · simp only [if_neg h]
    rw [← Finset.sum_div, show (∑ v ∈ nodes, w u v) = Authority.outWeight nodes w u from rfl,
      div_self h]

theorem pagerank_step_sum (nodes : Finset String) (w : String → String → ℚ)
    (prev : String → ℚ) (hne : nodes.Nonempty)
    (hsum : ∑ v ∈ nodes, prev v = 1) :
    ∑ v ∈ nodes, Authority.pagerank_step nodes w prev v = 1 := by
  have hcard : (nodes.card : ℚ) ≠ 0 :=
    Nat.cast_ne_zero.mpr (Finset.card_pos.mpr hne).ne'
  simp only [Authority.pagerank_step]
  rw [Finset.sum_add_distrib]
  have t1 : ∑ _v ∈ nodes, (1 - Authority.DAMPING) / (nodes.card : ℚ)
      = 1 - Authority.DAMPING := by
    rw [Finset.sum_const, nsmul_eq_mul]
    field_simp
  have t2 : (∑ v ∈ nodes, Authority.DAMPING * ∑ u ∈ nodes, prev u *
        (if Authority.outWeight nodes w u = 0 then 1 / (nodes.card : ℚ)
         else w u v / Authority.outWeight nodes w u)) = Authority.DAMPING := by
    rw [← Finset.mul_sum, Finset.sum_comm]
    have hrow : ∀ u ∈ nodes, (∑ v ∈ nodes, prev u *
        (if Authority.outWeight nodes w u = 0 then 1 / (nodes.card : ℚ)
         else w u v / Authority.outWeight nodes w u)) = prev u := by
      intro u hu
      rw [← Finset.mul_sum, transition_row_sum nodes w hne u, mul_one]
    rw [Finset.sum_congr rfl hrow, hsum, mul_one]
  rw [t1, t2]
  ring

theorem pagerank_step_floor (nodes : Finset String) (w : String → String → ℚ)
    (prev : String → ℚ) (hw : ∀ u v, 0 ≤ w u v) (hprev : ∀ v, 0 ≤ prev v)
    (v : String) :
    (1 - Authority.DAMPING) / (nodes.card : ℚ) ≤ Authority.pagerank_step nodes w prev v := by
  have hterm : 0 ≤ ∑ u ∈ nodes, prev u *
      (if Authority.outWeight nodes w u = 0 then 1 / (nodes.card : ℚ)
       else w u v / Authority.outWeight nodes w u) := by
    refine Finset.sum_nonneg ?_
    intro u hu
    refine mul_nonneg (hprev u) ?_
    split
    · positivity
    · exact div_nonneg (hw u v) (Finset.sum_nonneg (fun x hx => hw u x))
  have hD : (0 : ℚ) ≤ Authority.DAMPING := by norm_num [Authority.DAMPING]
  have := mul_nonneg hD hterm
  simp only [Authority.pagerank_step]
  linarith

/-- C8 (spec-modelled authority engine): for every non-empty graph with
non-negative edge weights, every power-iteration iterate is a probability
distribution over the node set — the scores sum to exactly 1 and every
node's score is strictly positive; from the first iteration on every score,
in particular an isolated (dangling) node's, is at least the damping floor
`(1 - d)/N > 0`. -/
theorem C8_pagerank_invariants (nodes : Finset String) (w : String → String → ℚ)
    (hne : nodes.Nonempty) (hw : ∀ u v, 0 ≤ w u v) (k : Nat) :
    (∑ v ∈ nodes, Authority.pagerank_iter nodes w k v) = 1 ∧
    (∀ v, 0 < Authority.pagerank_iter nodes w k v) ∧
    (1 ≤ k → ∀ v, (1 - Authority.DAMPING) / (nodes.card : ℚ)
      ≤ Authority.pagerank_iter nodes w k v) := by
  have hcard : (0 : ℚ) < (nodes.card : ℚ) :=
    Nat.cast_pos.mpr (Finset.card_pos.mpr hne)
  have hfloorpos : (0 : ℚ) < (1 - Authority.DAMPING) / (nodes.card : ℚ) := by
    apply div_pos _ hcard
    norm_num [Authority.DAMPING]
  induction k with
  | zero =>
    refine ⟨?_, ?_, by omega⟩
    · simp only [Authority.pagerank_iter]
      rw [Finset.sum_const, nsmul_eq_mul]
      field_simp
    · intro v
      simp only [Authority.pagerank_iter]
      positivity
  | succ k ih =>
    have hprev : ∀ v, 0 ≤ Authority.pagerank_iter nodes w k v := fun v => (ih.2.1 v).le
    have hfloor : ∀ v, (1 - Authority.DAMPING) / (nodes.card : ℚ)
        ≤ Authority.pagerank_iter nodes w (k + 1) v := by
      intro v
      exact pagerank_step_floor nodes w _ hw hprev v
    refine ⟨pagerank_step_sum nodes w _ hne ih.1, ?_, fun _ => hfloor⟩
    intro v
    exact lt_of_lt_of_le hfloorpos (hfloor v)

/-- C8 witness: one iteration on the two-node graph `A`–`B` with edge weight
1/2 is a positive probability distribution bounded below by the damping
floor. -/
theorem C8_pagerank_invariants_witness :
    (∑ v ∈ ({"A", "B"} : Finset String), Authority.pagerank_iter {"A", "B"} Fixtures.w8 1 v) = 1 ∧
    0 < Authority.pagerank_iter {"A", "B"} Fixtures.w8 1 "A" ∧
    (1 - Authority.DAMPING) / (({"A", "B"} : Finset String).card : ℚ)
      ≤ Authority.pagerank_iter {"A", "B"} Fixtures.w8 1 "A" := by
  have hw : ∀ u v, 0 ≤ Fixtures.w8 u v := by
    intro u v
    rw [Fixtures.w8]
    split <;> norm_num
  have h := C8_pagerank_invariants {"A", "B"} Fixtures.w8 ⟨"A", by decide⟩ hw 1
  exact ⟨h.1, h.2.1 "A", h.2.2 (by omega) "A"⟩

/-! ## Claim C4 -/

/-- C4 counterexample: querying `cat` ranks `A` (score 2) above `B` (score
1); candidate `C` is a graph neighbor of the considered top document `B`
with edge weight 1/2, yet its reported similarity is 0 because the source
only consults the single best-ranked document `A`. -/
theorem C4_counterexample :
    (App.suggestions_core Fixtures.idx4 [] Fixtures.G4 "cat").2
      = [{ filename := "C", pagerank := 0, similarity_score := 0 }] ∧
    ((App.suggestions_core Fixtures.idx4 [] Fixtures.G4 "cat").1.map App.RankedItem.filename
      = ["A", "B"]) ∧
    App.hasEdge Fixtures.G4 "B" "C" = true ∧
    App.edgeWeight Fixtures.G4 "B" "C" = 1/2 ∧
    ((1 : ℚ)/2 ≠ 0) := by
  refine ⟨?_, ?_, by decide, by norm_num [Fixtures.G4, App.edgeWeight], by norm_num⟩ <;>
    simp [App.suggestions_core, App.rank_results, App.rank_item, App.indexOcc, App.prGet,
      App.indexFiles, App.set_update, App.neighbors, App.inGraph, App.hasEdge,
      App.edgeWeight, Fixtures.idx4, Fixtures.G4, List.mergeSort, List.lookup,
      List.splitInTwo, List.splitAt, List.splitAt.go, List.merge]

theorem mem_set_update {acc l : List String} {x : String} :
    x ∈ App.set_update acc l ↔ x ∈ acc ∨ x ∈ l := by
  induction l generalizing acc with
  | nil => simp [App.set_update]
  | cons y ys ih =>
    rw [show App.set_update acc (y :: ys)
        = App.set_update (if y ∈ acc then acc else acc ++ [y]) ys from rfl, ih]
    by_cases hy : y ∈ acc
    · simp only [if_pos hy, List.mem_cons]
      constructor
      · rintro (h | h)
        · exact Or.inl h
        · exact Or.inr (Or.inr h)
      · rintro (h | rfl | h)
        · exact Or.inl h
        · exact Or.inl hy
        · exact Or.inr h
    · simp only [if_neg hy, List.mem_append, List.mem_singleton, List.mem_cons]
      tauto

theorem mem_neighbors_fold {G : App.SGraph} {tops : List App.RankedItem}
    {acc : List String} {x : String} :
    x ∈ tops.foldl (fun acc r =>
        if App.inGraph G r.filename then App.set_update acc (App.neighbors G r.filename)
        else acc) acc ↔
      x ∈ acc ∨ ∃ r ∈ tops, App.inGraph G r.filename ∧ x ∈ App.neighbors G r.filename := by
  induction tops generalizing acc with
  | nil => simp
  | cons t ts ih =>
    rw [List.foldl_cons, ih]
    by_cases ht : App.inGraph G t.filename
    · rw [if_pos ht, mem_set_update]
      simp only [List.mem_cons]
      constructor
      · rintro ((h | h) | ⟨r, hr, h1, h2⟩)
        · exact Or.inl h
        · exact Or.inr ⟨t, Or.inl rfl, ht, h⟩
        · exact Or.inr ⟨r, Or.inr hr, h1, h2⟩
      · rintro (h | ⟨r, (rfl | hr), h1, h2⟩)
        · exact Or.inl (Or.inl h)
        · exact Or.inl (Or.inr h2)
        · exact Or.inr ⟨r, hr, h1, h2⟩
    · rw [if_neg ht]
      constructor
      · rintro (h | ⟨r, hr, h1, h2⟩)
        · exact Or.inl h
        · exact Or.inr ⟨r, List.mem_cons_of_mem _ hr, h1, h2⟩
      · rintro (h | ⟨r, hr, h1, h2⟩)
        · exact Or.inl h
        · rcases List.mem_cons.mp hr with rfl | hr'
          · exact absurd h1 ht
          · exact Or.inr ⟨r, hr', h1, h2⟩

/-- C4 as amended: every returned suggestion is a graph neighbor of at least
one of the (at most three) top results and is not itself a top result, and
its reported similarity weight refers solely to the single best-ranked top
document `t0` (the head of the top list): it is `t0`'s edge weight to the
candidate when that edge exists and 0 otherwise — even when the candidate is
adjacent to a lower-ranked top document. -/
theorem C4_similarity_uses_top_ranked_only (idx : App.Index) (pr : App.Pagerank)
    (G : App.SGraph) (q : String) :
    ∀ s ∈ (App.suggestions_core idx pr G q).2,
      ∃ t0 rest, (App.suggestions_core idx pr G q).1 = t0 :: rest ∧
        s.filename ∉ ((App.suggestions_core idx pr G q).1.map App.RankedItem.filename) ∧
        (∃ t ∈ (App.suggestions_core idx pr G q).1,
          App.inGraph G t.filename ∧ s.filename ∈ App.neighbors G t.filename) ∧
        s.similarity_score =
          (if App.inGraph G s.filename ∧ App.inGraph G t0.filename ∧
              App.hasEdge G t0.filename s.filename
           then App.edgeWeight G t0.filename s.filename else 0) := by
  intro s hs
  simp only [App.suggestions_core] at hs ⊢
  cases htop : (App.rank_results idx pr (App.indexFiles idx q) q "hybrid").take 3 with
  | nil =>
    rw [htop] at hs
    simp at hs
  | cons t0 rest =>
    rw [htop] at hs
    simp only [List.mem_mergeSort] at hs
    obtain ⟨x, hx, rfl⟩ := List.mem_map.mp hs
    obtain ⟨hxfold, hxtop⟩ := List.mem_filter.mp hx
    refine ⟨t0, rest, rfl, ?_, ?_, rfl⟩
    · intro hmem
      have hc : List.elem x (List.map App.RankedItem.filename (t0 :: rest)) = true :=
        List.elem_eq_true_of_mem hmem
      rw [show (List.map App.RankedItem.filename (t0 :: rest)).contains x
          = List.elem x (List.map App.RankedItem.filename (t0 :: rest)) from rfl, hc] at hxtop
      simp at hxtop
    · have := mem_neighbors_fold.mp hxfold
      rcases this with h | h
      · cases h
      · exact h

/-- C4 witness: the suggestion `C` of the fixture query instantiates the
amended statement — it neighbors a top result, is no top result itself, and
its reported weight is computed against the best-ranked top document only. -/
theorem C4_similarity_uses_top_ranked_only_witness :
    ∃ t0 rest, (App.suggestions_core Fixtures.idx4 [] Fixtures.G4 "cat").1 = t0 :: rest ∧
      (⟨"C", 0, 0⟩ : App.Suggestion).filename
        ∉ ((App.suggestions_core Fixtures.idx4 [] Fixtures.G4 "cat").1.map
            App.RankedItem.filename) ∧
      (∃ t ∈ (App.suggestions_core Fixtures.idx4 [] Fixtures.G4 "cat").1,
        App.inGraph Fixtures.G4 t.filename ∧
        (⟨"C", 0, 0⟩ : App.Suggestion).filename ∈ App.neighbors Fixtures.G4 t.filename) ∧
      (⟨"C", 0, 0⟩ : App.Suggestion).similarity_score =
        (if App.inGraph Fixtures.G4 (⟨"C", 0, 0⟩ : App.Suggestion).filename ∧
            App.inGraph Fixtures.G4 t0.filename ∧
            App.hasEdge Fixtures.G4 t0.filename (⟨"C", 0, 0⟩ : App.Suggestion).filename
         then App.edgeWeight Fixtures.G4 t0.filename (⟨"C", 0, 0⟩ : App.Suggestion).filename
         else 0) :=
  C4_similarity_uses_top_ranked_only Fixtures.idx4 [] Fixtures.G4 "cat" ⟨"C", 0, 0⟩
    (by simp [App.suggestions_core, App.rank_results, App.rank_item, App.indexOcc, App.prGet,
      App.indexFiles, App.set_update, App.neighbors, App.inGraph, App.hasEdge,
      App.edgeWeight, Fixtures.idx4, Fixtures.G4, List.mergeSort, List.lookup,
      List.splitInTwo, List.splitAt, List.splitAt.go, List.merge])

/-! ## Claim C9 -/

/-- C9 counterexample: the similarity tokenizer applies no stopword filter —
the configured stopword `the` is a token of the corpus text `the cat`
handed to graph construction; moreover accents are decomposed rather than
stripped: the graph token of `été` retains two U+0301 combining accents. -/
theorem C9_counterexample :
    "the" ∈ Jaccard.tokenize_text "the cat" ∧
    "the" ∈ CreateIndex.STOPWORDS ∧
    String.mk ['e', PyText.markAcute, 't', 'e', PyText.markAcute]
      ∈ Jaccard.tokenize_text "été" ∧
    PyText.markAcute
      ∈ (String.mk ['e', PyText.markAcute, 't', 'e', PyText.markAcute]).data ∧
    Jaccard.letterClass PyText.markAcute = false :=
  ⟨by decide, by decide, by decide, by decide, by decide⟩

theorem char_toNat_inj {c d : Char} (h : c.toNat = d.toNat) : c = d :=
  char_eq_of_toNat_eq h

theorem not_upperLike_pyLowerChar (c : Char) :
    ¬ PyText.IsUpperLike (PyText.pyLowerChar c) := by
  have hA : ('A' : Char).toNat = 65 := by decide
  have hZ : ('Z' : Char).toNat = 90 := by decide
  have hAg : ('À' : Char).toNat = 192 := by decide
  have hTh : ('Þ' : Char).toNat = 222 := by decide
  rw [PyText.pyLowerChar]
  split
  case isTrue h =>
    obtain ⟨h1, h2, h3⟩ := h
    rw [char_le_iff_toNat, hAg] at h1
    rw [char_le_iff_toNat, hTh] at h2
    have hb : c.toNat + 32 < 55296 := by omega
    rintro (⟨u1, u2⟩ | ⟨u1, u2, u3⟩) <;>
      rw [char_le_iff_toNat, char_toNat_ofNat_of_lt hb] at u1 u2 <;>
      rw [hA] at * <;> rw [hZ] at * <;> rw [hAg] at * <;> rw [hTh] at * <;> omega
  case isFalse h =>
    rw [Char.toLower]
    split
    case isTrue h2 =>
      have hb : c.toNat + 32 < 55296 := by omega
      rintro (⟨u1, u2⟩ | ⟨u1, u2, u3⟩) <;>
        rw [char_le_iff_toNat, char_toNat_ofNat_of_lt hb] at u1 u2 <;>
        rw [hA] at * <;> rw [hZ] at * <;> rw [hAg] at * <;> rw [hTh] at * <;> omega
    case isFalse h2 =>
      rintro (⟨u1, u2⟩ | hu)
      · rw [char_le_iff_toNat, hA] at u1
        rw [char_le_iff_toNat, hZ] at u2
        exact h2 ⟨u1, u2⟩
      · exact h hu

theorem nfkdChar_mem_cases {c c' : Char} (h : c' ∈ PyText.nfkdChar c) :
    c' = c ∨ c' ∈ ['a', 'c', 'e', 'i', 'n', 'o', 'u', 'y']
      ∨ c' ∈ PyText.combiningMarks := by
  unfold PyText.nfkdChar at h
  split at h
  all_goals
    first
      | exact Or.inl (by simpa using h)
      | (simp only [List.mem_cons, List.not_mem_nil, or_false] at h
         rcases h with rfl | rfl
         · exact Or.inr (Or.inl (by decide))
         · exact Or.inr (Or.inr (by decide)))

theorem nfkdChar_not_upper {c c' : Char} (hc : ¬ PyText.IsUpperLike c)
    (h : c' ∈ PyText.nfkdChar c) : ¬ PyText.IsUpperLike c' := by
  rcases nfkdChar_mem_cases h with rfl | h8 | hm
  · exact hc
  · have : c' = 'a' ∨ c' = 'c' ∨ c' = 'e' ∨ c' = 'i' ∨ c' = 'n' ∨ c' = 'o' ∨
        c' = 'u' ∨ c' = 'y' := by simpa using h8
    rcases this with rfl | rfl | rfl | rfl | rfl | rfl | rfl | rfl <;> decide
  · have : c' = PyText.markGrave ∨ c' = PyText.markAcute ∨ c' = PyText.markCirc ∨
        c' = PyText.markTilde ∨ c' = PyText.markDiaer ∨ c' = PyText.markRing ∨
        c' = PyText.markCedilla := by simpa [PyText.combiningMarks] using hm
    rcases this with rfl | rfl | rfl | rfl | rfl | rfl | rfl <;> decide

theorem nfkdChar_letterClass {c c' : Char} (hc : Jaccard.letterClass c = true)
    (h : c' ∈ PyText.nfkdChar c) :
    Jaccard.letterClass c' = true ∨ c' ∈ PyText.combiningMarks := by
  rcases nfkdChar_mem_cases h with rfl | h8 | hm
  · exact Or.inl hc
  · have : c' = 'a' ∨ c' = 'c' ∨ c' = 'e' ∨ c' = 'i' ∨ c' = 'n' ∨ c' = 'o' ∨
        c' = 'u' ∨ c' = 'y' := by simpa using h8
    rcases this with rfl | rfl | rfl | rfl | rfl | rfl | rfl | rfl <;> exact Or.inl (by decide)
  · exact Or.inr hm

theorem pyLowerChar_letterClass {c : Char} (h : Jaccard.letterClass c = true) :
    Jaccard.letterClass (PyText.pyLowerChar c) = true := by
  have ha : ('a' : Char).toNat = 97 := by decide
  have hz : ('z' : Char).toNat = 122 := by decide
  have hA : ('A' : Char).toNat = 65 := by decide
  have hZ : ('Z' : Char).toNat = 90 := by decide
  have hAg : ('À' : Char).toNat = 192 := by decide
  have hTh : ('Þ' : Char).toNat = 222 := by decide
  have hyg : ('ÿ' : Char).toNat = 255 := by decide
  simp only [Jaccard.letterClass, Bool.or_eq_true, Bool.and_eq_true,
    decide_eq_true_eq] at h ⊢
  rw [PyText.pyLowerChar]
  split
  case isTrue hb =>
    obtain ⟨h1, h2, h3⟩ := hb
    rw [char_le_iff_toNat, hAg] at h1
    rw [char_le_iff_toNat, hTh] at h2
    have hlt : c.toNat + 32 < 55296 := by omega
    refine Or.inr ⟨?_, ?_⟩ <;>
      rw [char_le_iff_toNat, char_toNat_ofNat_of_lt hlt] <;>
      first
        | (rw [hAg]; omega)
        | (rw [hyg]; omega)
  case isFalse hb =>
    rw [Char.toLower]
    split
    case isTrue h2 =>
      have hlt : c.toNat + 32 < 55296 := by omega
      refine Or.inl (Or.inl ⟨?_, ?_⟩) <;>
        rw [char_le_iff_toNat, char_toNat_ofNat_of_lt hlt] <;>
        first
          | (rw [ha]; omega)
          | (rw [hz]; omega)
    case isFalse h2 =>
      rcases h with (⟨h1, h2'⟩ | ⟨h1, h2'⟩) | ⟨h1, h2'⟩
      · exact Or.inl (Or.inl ⟨h1, h2'⟩)
      · rw [char_le_iff_toNat, hA] at h1
        rw [char_le_iff_toNat, hZ] at h2'
        exact absurd ⟨h1, h2'⟩ h2
      · rw [char_le_iff_toNat, hAg] at h1
        rw [char_le_iff_toNat, hyg] at h2'
        by_cases hx : c = '×'
        · subst hx
          exact Or.inr ⟨by decide, by decide⟩
        · have hle : c.toNat ≤ 222 ∨ 223 ≤ c.toNat := by omega
          rcases hle with hle | hle
          · exact absurd ⟨char_le_iff_toNat.mpr (by rw [hAg]; omega),
              char_le_iff_toNat.mpr (by rw [hTh]; omega), hx⟩ hb
          · exact Or.inr ⟨char_le_iff_toNat.mpr (by rw [hAg]; omega),
              char_le_iff_toNat.mpr (by rw [hyg]; omega)⟩

theorem mem_of_mem_splitOnP {p : Char → Bool} :
    ∀ {l r : List Char} {c : Char}, r ∈ l.splitOnP p → c ∈ r → c ∈ l := by
  intro l
  induction l with
  | nil =>
    intro r c hr hc
    rw [List.splitOnP_nil] at hr
    simp only [List.mem_singleton] at hr
    subst hr
    cases hc
  | cons x xs ih =>
    intro r c hr hc
    rw [List.splitOnP_cons] at hr
    split at hr
    · rcases List.mem_cons.mp hr with rfl | hr'
      · cases hc
      · exact List.mem_cons_of_mem _ (ih hr' hc)
    · cases hsplit : xs.splitOnP p with
      | nil => exact absurd hsplit (List.splitOnP_ne_nil _ _)
      | cons hd tl =>
        rw [hsplit, List.modifyHead_cons] at hr
        rcases List.mem_cons.mp hr with rfl | hr'
        · rcases List.mem_cons.mp hc with rfl | hc'
          · exact List.mem_cons_self _ _
          · exact List.mem_cons_of_mem _
              (ih (by rw [hsplit]; exact List.mem_cons_self _ _) hc')
        · exact List.mem_cons_of_mem _
            (ih (by rw [hsplit]; exact List.mem_cons_of_mem _ hr') hc)

theorem pipeline_chars {s : String} {c : Char}
    (h : c ∈ (PyText.stripDecomposable (PyText.nfkd (PyText.pyLower s))).data) :
    ¬ PyText.IsUpperLike c ∧ PyText.decomposable c = false := by
  simp only [PyText.stripDecomposable, PyText.nfkd, PyText.pyLower] at h
  rw [List.mem_filter] at h
  obtain ⟨hmem, hdec⟩ := h
  refine ⟨?_, by simpa using hdec⟩
  rw [List.mem_flatMap] at hmem
  obtain ⟨c0, hc0, hcc⟩ := hmem
  obtain ⟨c1, hc1, rfl⟩ := List.mem_map.mp hc0
  exact nfkdChar_not_upper (not_upperLike_pyLowerChar c1) hcc

theorem pipeline_chars_letter {run : List Char} {c : Char}
    (hall : run.all Jaccard.letterClass = true)
    (h : c ∈ (Jaccard.normalize_word (String.mk run)).data) :
    Jaccard.letterClass c = true ∨ c ∈ PyText.combiningMarks := by
  simp only [Jaccard.normalize_word, PyText.stripDecomposable, PyText.nfkd,
    PyText.pyLower] at h
  rw [List.mem_filter] at h
  obtain ⟨hmem, -⟩ := h
  rw [List.mem_flatMap] at hmem
  obtain ⟨c0, hc0, hcc⟩ := hmem
  obtain ⟨c1, hc1, rfl⟩ := List.mem_map.mp hc0
  have hlc1 : Jaccard.letterClass c1 = true := List.all_eq_true.mp hall c1 hc1
  exact nfkdChar_letterClass (pyLowerChar_letterClass hlc1) hcc

theorem marks_not_wordChar {c : Char} (h : c ∈ PyText.combiningMarks) :
    PyText.isWordChar c = false := by
  have : c = PyText.markGrave ∨ c = PyText.markAcute ∨ c = PyText.markCirc ∨
      c = PyText.markTilde ∨ c = PyText.markDiaer ∨ c = PyText.markRing ∨
      c = PyText.markCedilla := by simpa [PyText.combiningMarks] using h
  rcases this with rfl | rfl | rfl | rfl | rfl | rfl | rfl <;> decide

theorem mem_tokenize_fold {l : List String} {acc : Finset String} {t : String}
    (h : t ∈ l.foldl (fun acc w =>
      if Jaccard.MIN_WORD_LENGTH ≤ (Jaccard.normalize_word w).length
      then insert (Jaccard.normalize_word w) acc else acc) acc) :
    t ∈ acc ∨ ∃ w ∈ l, t = Jaccard.normalize_word w ∧
      Jaccard.MIN_WORD_LENGTH ≤ t.length := by
  induction l generalizing acc with
  | nil => exact Or.inl h
  | cons w ws ih =>
    rw [List.foldl_cons] at h
    rcases ih h with hacc | ⟨w', hw', rfl, hlen⟩
    · by_cases hc : Jaccard.MIN_WORD_LENGTH ≤ (Jaccard.normalize_word w).length
      · rw [if_pos hc] at hacc
        rcases Finset.mem_insert.mp hacc with rfl | hacc'
        · exact Or.inr ⟨w, List.mem_cons_self _ _, rfl, hc⟩
        · exact Or.inl hacc'
      · rw [if_neg hc] at hacc
        exact Or.inl hacc
    · exact Or.inr ⟨w', List.mem_cons_of_mem _ hw', rfl, hlen⟩

/-- C9 as amended: every inverted-index token is at least 3 characters long,
is no stopword, consists only of word characters (punctuation and combining
marks stripped), is lowercase, and carries no precomposed accented letter —
fully accent-free.  Every similarity-graph token is at least 3 characters
long, lowercase, and consists only of tokenizer-class letters and combining
marks — accents are decomposed into combining marks rather than stripped —
and no stopword filter is applied to graph tokens. -/
theorem C9_token_properties :
    (∀ text t, t ∈ CreateIndex.index_tokens text →
      3 ≤ t.length ∧ t ∉ CreateIndex.STOPWORDS ∧
      (∀ c ∈ t.data, PyText.isWordChar c = true) ∧
      (∀ c ∈ t.data, ¬ PyText.IsUpperLike c) ∧
      (∀ c ∈ t.data, PyText.decomposable c = false ∧ c ∉ PyText.combiningMarks)) ∧
    (∀ text t, t ∈ Jaccard.tokenize_text text →
      3 ≤ t.length ∧
      (∀ c ∈ t.data, ¬ PyText.IsUpperLike c ∧ PyText.decomposable c = false) ∧
      (∀ c ∈ t.data, Jaccard.letterClass c = true ∨ c ∈ PyText.combiningMarks)) := by
  constructor
  · intro text t ht
    obtain ⟨w, hw, hcw⟩ := List.mem_filterMap.mp ht
    simp only [CreateIndex.clean_word] at hcw
    split at hcw
    case isFalse => cases hcw
    case isTrue hcond =>
      obtain rfl := Option.some.inj hcw
      have hwordchar : ∀ c ∈ (String.mk (w.data.filter PyText.isWordChar)).data,
          PyText.isWordChar c = true := by
        intro c hc
        exact (List.mem_filter.mp hc).2
      have hsrc : ∀ c ∈ (String.mk (w.data.filter PyText.isWordChar)).data,
          c ∈ (CreateIndex.normalize_text text).data := by
        intro c hc
        have hcw' : c ∈ w.data := (List.mem_filter.mp hc).1
        rw [PyText.pySplit] at hw
        obtain ⟨r, hr, rfl⟩ := List.mem_map.mp hw
        exact mem_of_mem_splitOnP (List.mem_filter.mp hr).1 hcw'
      have hpipe : ∀ c ∈ (String.mk (w.data.filter PyText.isWordChar)).data,
          ¬ PyText.IsUpperLike c ∧ PyText.decomposable c = false :=
        fun c hc => pipeline_chars (hsrc c hc)
      refine ⟨by have := hcond.1; omega, hcond.2, hwordchar, ?_, ?_⟩
      · exact fun c hc => (hpipe c hc).1
      · intro c hc
        refine ⟨(hpipe c hc).2, ?_⟩
        intro hmark
        have hcontra := hwordchar c hc
        rw [marks_not_wordChar hmark] at hcontra
        exact absurd hcontra (by simp)
  · intro text t ht
    rw [Jaccard.tokenize_text] at ht
    rcases mem_tokenize_fold ht with hemp | ⟨w, hwmem, rfl, hlen⟩
    · exact absurd hemp (Finset.not_mem_empty t)
    · rw [Jaccard.findall_words] at hwmem
      obtain ⟨r, hr, rfl⟩ := List.mem_map.mp hwmem
      have hall : r.all Jaccard.letterClass = true := (List.mem_filter.mp hr).2
      refine ⟨by simpa [Jaccard.MIN_WORD_LENGTH] using hlen, ?_, ?_⟩
      · exact fun c hc => pipeline_chars hc
      · exact fun c hc => pipeline_chars_letter hall hc

/-- C9 witness: the index token `chat` of `"Le chat"` and the graph token
`cat` of `"the cat"` instantiate the amended token properties. -/
theorem C9_token_properties_witness :
    (3 ≤ ("chat" : String).length ∧ ("chat" : String) ∉ CreateIndex.STOPWORDS ∧
     (∀ c ∈ ("chat" : String).data, PyText.isWordChar c = true) ∧
     (∀ c ∈ ("chat" : String).data, ¬ PyText.IsUpperLike c) ∧
     (∀ c ∈ ("chat" : String).data,
        PyText.decomposable c = false ∧ c ∉ PyText.combiningMarks)) ∧
    (3 ≤ ("cat" : String).length ∧
     (∀ c ∈ ("cat" : String).data,
        ¬ PyText.IsUpperLike c ∧ PyText.decomposable c = false) ∧
     (∀ c ∈ ("cat" : String).data,
        Jaccard.letterClass c = true ∨ c ∈ PyText.combiningMarks)) :=
  ⟨C9_token_properties.1 "Le chat" "chat" (by decide),
   C9_token_properties.2 "the cat" "cat" (by decide)⟩
